import Mathlib

/-!
Shallow embedding of `app/frontend_management.py`: a module that resolves,
downloads, caches and selects a versioned static web-frontend bundle.

Network access is modelled by an explicit environment `Env` mapping URLs to
responses, the filesystem by an explicit `FS` state, and each operation
additionally returns the ordered trace of network events it issued.
Python exceptions are modelled by the `Err` error type carried in `Except`.
-/

/-- Errors raised by the module.  Each constructor models a Python exception
class raised in the source, except `outOfFuel`, which is a model artifact
standing for non-termination of the pagination `while` loop (no Python
`except` clause can observe non-termination). -/
inductive Err where
  | invalidVersionSpec (value : String)
  | httpError (status : Nat)
  | versionNotFound (version : String)
  | assetNotFound
  | keyError (key : String)
  | badZip
  | outOfFuel
deriving DecidableEq, Repr

/-- Python `except Exception` catches every raised error; `outOfFuel` models
divergence, which is not a raised exception. -/
def Err.isException : Err → Bool
  | .outOfFuel => false
  | _ => true

/-- `class Asset(TypedDict): url: str`.  The source also reads `asset["name"]`,
which the TypedDict does not declare, so the model carries `name` as an
optional field; `none` models an absent `"name"` key. -/
structure Asset where
  name : Option String
  url : String
deriving DecidableEq, Repr

/-- `class Release(TypedDict)` from the source; `assets` is `NotRequired`. -/
structure Release where
  id : Int
  tag_name : String
  name : String
  prerelease : Bool
  created_at : String
  published_at : String
  body : String
  assets : Option (List Asset)
deriving DecidableEq, Repr

/-- Response to a GET on a releases-collection URL: a JSON list of releases
plus an optional `rel="next"` pagination link, or a non-success status. -/
inductive PageResp where
  | ok (body : List Release) (next : Option String)
  | err (status : Nat)
deriving DecidableEq, Repr

/-- Response to a GET on the `/releases/latest` URL. -/
inductive LatestResp where
  | ok (r : Release)
  | err (status : Nat)
deriving DecidableEq, Repr

/-- Outcome of extracting a fetched zip body into a directory: either the
full list of file names written, or a failure after writing a prefix of
them (e.g. a corrupt archive). -/
inductive ExtractResult where
  | ok (names : List String)
  | fail (written : List String)
deriving DecidableEq, Repr

/-- Response to a GET on an asset download URL. -/
inductive AssetResp where
  | httpErr (status : Nat)
  | ok (extract : ExtractResult)
deriving DecidableEq, Repr

/-- Network events, in the order the module issues them. -/
inductive Ev where
  | getPage (url : String)
  | getLatest (url : String)
  | getAsset (url : String) (accept : String)
deriving DecidableEq, Repr

/-- The external world: what each URL answers. -/
structure Env where
  page : String → PageResp
  latest : String → LatestResp
  asset : String → AssetResp

/-- Filesystem state: the set of existing directories and the files present,
each file recorded as (containing directory, file name). -/
@[ext]
structure FS where
  dirs : List String
  files : List (String × String)
deriving DecidableEq, Repr

/-- `os.listdir(d)`. -/
def listdir (fs : FS) (d : String) : List String :=
  (fs.files.filter (fun f => f.1 = d)).map Prod.snd

/-- `os.makedirs(d, exist_ok=True)`. -/
def makedirs (fs : FS) (d : String) : FS :=
  { fs with dirs := if d ∈ fs.dirs then fs.dirs else d :: fs.dirs }

/-- `os.rmdir(d)` (the source only calls it on an empty directory). -/
def rmdir (fs : FS) (d : String) : FS :=
  { fs with dirs := fs.dirs.erase d }

/-- Zip extraction writing the given file names into directory `dir`. -/
def writeFiles (fs : FS) (dir : String) (names : List String) : FS :=
  { fs with files := fs.files ++ names.map (fun n => (dir, n)) }

/-- `str(Path(a) / b)`. -/
def pjoin (a b : String) : String := a ++ "/" ++ b

def REQUEST_TIMEOUT : Nat := 10

/-- Modelled from the spec: `DEFAULT_VERSION_STRING` is imported from
`comfy.cli_args`, which is not part of this repository's sources; the spec
calls it the sentinel "default". -/
def DEFAULT_VERSION_STRING : String := "default"

/-- Modelled from the spec: the bundled default frontend path, computed in the
source from the installed `comfyui_frontend_package` package location. -/
def DEFAULT_FRONTEND_PATH : String := "comfyui_frontend_package/static"

/-- Modelled from the spec: the cache root, computed in the source from the
module file's location (`.../web_custom_versions`). -/
def CUSTOM_FRONTENDS_ROOT : String := "web_custom_versions"

/-! ### The version-string regex

`VERSION_PATTERN = r"^([a-zA-Z0-9][a-zA-Z0-9-]{0,38})/([a-zA-Z0-9_.-]+)@(v?\d+\.\d+\.\d+|latest)$"`

The separators `/` and `@` do not occur in the adjacent character classes, so
a match, when it exists, is forced: group 1 is everything before the first
`/`, group 2 everything from there to the first `@`, group 3 the rest.
Python's `$` matches at the end of the string or just before a single
trailing newline.  `\d` is modelled as the ASCII digits (the source pattern
and the spec's pattern agree on `\d`, so the claims do not depend on the
wider Unicode-digit reading). -/

def isAlnumA (c : Char) : Bool := c.isAlpha || c.isDigit

def isOwnerChar (c : Char) : Bool := isAlnumA c || c = '-'

def isRepoChar (c : Char) : Bool := isAlnumA c || c = '_' || c = '.' || c = '-'

/-- Split a character list at the first occurrence of `sep`:
`some (before, after)`, or `none` when `sep` does not occur. -/
def splitFirst (sep : Char) : List Char → Option (List Char × List Char)
  | [] => none
  | c :: rest =>
    if c = sep then some ([], rest)
    else
      match splitFirst sep rest with
      | none => none
      | some (a, b) => some (c :: a, b)

/-- `\d+` on exactly this run. -/
def digitRun (l : List Char) : Bool := !l.isEmpty && l.all Char.isDigit

/-- `\d+\.\d+\.\d+` against the whole input. -/
def semverCore (v : List Char) : Bool :=
  match splitFirst '.' v with
  | none => false
  | some (a, rest) =>
    match splitFirst '.' rest with
    | none => false
    | some (b, c) => digitRun a && digitRun b && digitRun c

/-- `v?\d+\.\d+\.\d+` against the whole input. -/
def semverOk : List Char → Bool
  | 'v' :: rest => semverCore rest
  | v => semverCore v

/-- `(v?\d+\.\d+\.\d+|latest)` against the whole input. -/
def versionOk (v : List Char) : Bool := semverOk v || v = "latest".data

/-- `[a-zA-Z0-9][a-zA-Z0-9-]{0,38}` against the whole input. -/
def ownerOk : List Char → Bool
  | [] => false
  | c :: rest => isAlnumA c && rest.all isOwnerChar && rest.length ≤ 38

/-- `[a-zA-Z0-9_.-]+` against the whole input. -/
def repoOk (r : List Char) : Bool := !r.isEmpty && r.all isRepoChar

/-- The pattern without the `$`-newline allowance: the three groups when the
whole character list matches. -/
def coreMatch (l : List Char) : Option (List Char × List Char × List Char) :=
  match splitFirst '/' l with
  | none => none
  | some (o, rest) =>
    match splitFirst '@' rest with
    | none => none
    | some (r, v) =>
      if ownerOk o && repoOk r && versionOk v then some (o, r, v) else none

/-- `re.match(VERSION_PATTERN, value)` with Python `$` semantics: the pattern
may also match with a single trailing newline left unconsumed. -/
def regexGroups (value : String) : Option (String × String × String) :=
  match coreMatch value.data with
  | some (o, r, v) => some (⟨o⟩, ⟨r⟩, ⟨v⟩)
  | none =>
    if value.data.getLast? = some '\n' then
      match coreMatch value.data.dropLast with
      | some (o, r, v) => some (⟨o⟩, ⟨r⟩, ⟨v⟩)
      | none => none
    else none

/-- `FrontendManager.parse_version_string`. -/
def parse_version_string (value : String) : Except Err (String × String × String) :=
  match regexGroups value with
  | none => .error (.invalidVersionSpec value)
  | some g => .ok g

/-! ### FrontEndProvider -/

/-- `FrontEndProvider.folder_name`. -/
def folder_name (owner repo : String) : String := owner ++ "_" ++ repo

/-- `FrontEndProvider.release_url`. -/
def release_url (owner repo : String) : String :=
  "https://api.github.com/repos/" ++ owner ++ "/" ++ repo ++ "/releases"

/-- The `while api_url:` pagination loop of `FrontEndProvider.all_releases`,
with accumulated releases and network trace; `fuel` bounds the number of
iterations (the Python loop has no bound and diverges on a cyclic chain). -/
def all_releases_go (env : Env) : Nat → Option String → List Release → List Ev →
    Except Err (List Release) × List Ev
  | _, none, acc, tr => (.ok acc, tr)
  | 0, some _, _, tr => (.error .outOfFuel, tr)
  | fuel + 1, some url, acc, tr =>
    match env.page url with
    | .err s => (.error (.httpError s), tr ++ [.getPage url])
    | .ok body next => all_releases_go env fuel next (acc ++ body) (tr ++ [.getPage url])

/-- `FrontEndProvider.all_releases`. -/
def all_releases (env : Env) (fuel : Nat) (owner repo : String) :
    Except Err (List Release) × List Ev :=
  all_releases_go env fuel (some (release_url owner repo)) [] []

/-- `FrontEndProvider.latest_release`. -/
def latest_release (env : Env) (owner repo : String) : Except Err Release × List Ev :=
  let url := release_url owner repo ++ "/latest"
  match env.latest url with
  | .err s => (.error (.httpError s), [.getLatest url])
  | .ok r => (.ok r, [.getLatest url])

/-- The linear scan inside `FrontEndProvider.get_release`:
`release["tag_name"] in [version, f"v{version}"]`, first match wins, else
`ValueError(f"Version {version} not found in releases")`. -/
def find_release (version : String) : List Release → Except Err Release
  | [] => .error (.versionNotFound version)
  | r :: rs =>
    if r.tag_name = version ∨ r.tag_name = "v" ++ version then .ok r
    else find_release version rs

/-- `FrontEndProvider.get_release`. -/
def get_release (env : Env) (fuel : Nat) (owner repo version : String) :
    Except Err Release × List Ev :=
  if version = "latest" then latest_release env owner repo
  else
    match all_releases env fuel owner repo with
    | (.error e, tr) => (.error e, tr)
    | (.ok rs, tr) => (find_release version rs, tr)

/-! ### download_release_asset_zip -/

def ACCEPT_OCTET : String := "application/octet-stream"

/-- The `for asset in release.get("assets", [])` loop: `asset["name"]` raises
`KeyError` when the key is absent; on the first `"dist.zip"` it records
`asset["url"]` and breaks; `none` models the loop ending with
`asset_url` still `None`. -/
def find_asset_url : List Asset → Except Err (Option String)
  | [] => .ok none
  | a :: rest =>
    match a.name with
    | none => .error (.keyError "name")
    | some n => if n = "dist.zip" then .ok (some a.url) else find_asset_url rest

deriving instance DecidableEq for Except

/-- Result of a download step: outcome, network trace, filesystem after. -/
structure DlOut where
  res : Except Err Unit
  trace : List Ev
  fs : FS
deriving DecidableEq, Repr

/-- `download_release_asset_zip(release, destination_path)`.  Note the source
guard is `if not asset_url:`, which fires both when no `"dist.zip"` asset was
found and when the found asset's URL is the empty string. -/
def download_release_asset_zip (env : Env) (release : Release)
    (destination_path : String) (fs : FS) : DlOut :=
  match find_asset_url (release.assets.getD []) with
  | .error e => ⟨.error e, [], fs⟩
  | .ok asset_url =>
    match asset_url with
    | none => ⟨.error .assetNotFound, [], fs⟩
    | some u =>
      if u = "" then ⟨.error .assetNotFound, [], fs⟩
      else
        match env.asset u with
        | .httpErr s => ⟨.error (.httpError s), [.getAsset u ACCEPT_OCTET], fs⟩
        | .ok (.ok names) =>
          ⟨.ok (), [.getAsset u ACCEPT_OCTET], writeFiles fs destination_path names⟩
        | .ok (.fail written) =>
          ⟨.error .badZip, [.getAsset u ACCEPT_OCTET], writeFiles fs destination_path written⟩

/-! ### FrontendManager -/

/-- `version.startswith("v")`. -/
def starts_with_v (s : String) : Bool :=
  match s.data with
  | 'v' :: _ => true
  | _ => false

/-- `str.lstrip("v")` on the character list: removes every leading `'v'`. -/
def lstrip_v_data : List Char → List Char
  | 'v' :: rest => lstrip_v_data rest
  | s => s

/-- `tag.lstrip("v")`. -/
def lstrip_v (s : String) : String := ⟨lstrip_v_data s.data⟩

/-- Result of a frontend-initialization run: outcome (a path on success),
network trace, filesystem after. -/
structure RunOut where
  res : Except Err String
  trace : List Ev
  fs : FS
deriving DecidableEq, Repr

/-- `FrontendManager.init_frontend_unsafe`.  The optional `provider` argument
of the source defaults to `FrontEndProvider(repo_owner, repo_name)`; the model
always uses that default. -/
def init_frontend_unsafe (env : Env) (fuel : Nat) (version_string : String)
    (fs : FS) : RunOut :=
  if version_string = DEFAULT_VERSION_STRING then ⟨.ok DEFAULT_FRONTEND_PATH, [], fs⟩
  else
    match parse_version_string version_string with
    | .error e => ⟨.error e, [], fs⟩
    | .ok (repo_owner, repo_name, version) =>
      let expected_path :=
        pjoin (pjoin CUSTOM_FRONTENDS_ROOT (repo_owner ++ "_" ++ repo_name))
          (lstrip_v version)
      if starts_with_v version ∧ expected_path ∈ fs.dirs then ⟨.ok expected_path, [], fs⟩
      else
        match get_release env fuel repo_owner repo_name version with
        | (.error e, tr) => ⟨.error e, tr, fs⟩
        | (.ok release, tr) =>
          let semantic_version := lstrip_v release.tag_name
          let web_root :=
            pjoin (pjoin CUSTOM_FRONTENDS_ROOT (folder_name repo_owner repo_name))
              semantic_version
          if web_root ∈ fs.dirs then ⟨.ok web_root, tr, fs⟩
          else
            let d := download_release_asset_zip env release web_root (makedirs fs web_root)
            let fs3 := if listdir d.fs web_root = [] then rmdir d.fs web_root else d.fs
            match d.res with
            | .ok _ => ⟨.ok web_root, tr ++ d.trace, fs3⟩
            | .error e => ⟨.error e, tr ++ d.trace, fs3⟩

/-! ### Spec-side definitions

These follow the specification's words, to be compared against the
definitions above, which follow the source. -/

/-- Spec: owner is "1–39 chars, alphanumeric/hyphen, starting alphanumeric". -/
def OwnerShape (o : List Char) : Prop :=
  1 ≤ o.length ∧ o.length ≤ 39 ∧ (∀ x ∈ o, isOwnerChar x = true) ∧
    ∀ x, o.head? = some x → isAlnumA x = true

/-- Spec: repo is one or more "alphanumeric, underscore, dot, hyphen" chars. -/
def RepoShape (r : List Char) : Prop :=
  1 ≤ r.length ∧ ∀ x ∈ r, isRepoChar x = true

/-- Spec: an optionally v-prefixed `MAJOR.MINOR.PATCH` of decimal digits. -/
def SemShape (v : List Char) : Prop :=
  ∃ a b c : List Char,
    (v = a ++ '.' :: (b ++ '.' :: c) ∨ v = 'v' :: (a ++ '.' :: (b ++ '.' :: c))) ∧
    a ≠ [] ∧ (∀ x ∈ a, x.isDigit = true) ∧
    b ≠ [] ∧ (∀ x ∈ b, x.isDigit = true) ∧
    c ≠ [] ∧ (∀ x ∈ c, x.isDigit = true)

/-- Spec: version is the literal "latest" or `v?MAJOR.MINOR.PATCH`. -/
def VersionShape (v : List Char) : Prop :=
  v = "latest".data ∨ SemShape v

/-- Spec-side: strip a SINGLE leading "v" (the claim's reading of the
semantic-version computation; the source uses `lstrip("v")`). -/
def strip_one_v (s : String) : String :=
  match s.data with
  | 'v' :: rest => ⟨rest⟩
  | _ => s

/-- Spec: a release matches a requested version when its `tag_name` equals
the version or `"v" +` the version. -/
def TagMatches (version : String) (rel : Release) : Prop :=
  rel.tag_name = version ∨ rel.tag_name = "v" ++ version

/-- An asset that carries a name other than `"dist.zip"` (the scan passes
over it without effect). -/
def NamedNonDist (a : Asset) : Prop :=
  ∃ nb, a.name = some nb ∧ nb ≠ "dist.zip"

/-- A finite pagination chain: starting from `start`, the environment answers
each listed (url, body) page successfully, each page linking to the next,
and the final page links to `stop` (`none` = chain ends). -/
def chainSeg (env : Env) : Option String → List (String × List Release) → Option String → Prop
  | start, [], stop => start = stop
  | start, (u, body) :: rest, stop =>
    start = some u ∧ ∃ nxt, env.page u = .ok body nxt ∧ chainSeg env nxt rest stop

/-! ### Concrete material for witnesses and counterexamples -/

def mkRelease (tag : String) (assets : Option (List Asset)) : Release :=
  ⟨0, tag, "", false, "", "", "", assets⟩

def fs0 : FS := ⟨[], []⟩

/-- A populated cache directory for `acme/widgets@v2.0.0`. -/
def fsCached : FS :=
  ⟨["web_custom_versions/acme_widgets/2.0.0"],
   [("web_custom_versions/acme_widgets/2.0.0", "index.html")]⟩

/-- An existing but empty cache directory for `acme/widgets@v2.0.0`. -/
def fsEmptyCached : FS :=
  ⟨["web_custom_versions/acme_widgets/2.0.0"], []⟩

/-- An environment in which every network request fails with status 500. -/
def env500 : Env := ⟨fun _ => .err 500, fun _ => .err 500, fun _ => .httpErr 500⟩

/-- A release whose tag carries a doubled "v". -/
def rel0 : Release := mkRelease "vv2.0.0" (some [⟨some "dist.zip", "u"⟩])

def env0 : Env :=
  ⟨fun _ => .ok [rel0] none, fun _ => .err 500, fun _ => .ok (.ok ["index.html"])⟩

def rel1 : Release := mkRelease "v3.4.5" (some [⟨some "dist.zip", "u"⟩])

def env1 : Env :=
  ⟨fun _ => .ok [rel1] none, fun _ => .err 500, fun _ => .ok (.ok ["index.html"])⟩

def rel2 : Release := mkRelease "v1.0.0" (some [⟨some "dist.zip", "u"⟩])

/-- Releases resolve but the asset fetch fails: the download writes nothing. -/
def env2 : Env :=
  ⟨fun _ => .ok [rel2] none, fun _ => .err 500, fun _ => .httpErr 500⟩

def relA : Release := mkRelease "v1.0.0" none
def relB : Release := mkRelease "v1.1.0" none
def relC : Release := mkRelease "v1.2.0" none

/-- Three successive pages, the first two carrying a `next` link. -/
def env3 : Env :=
  ⟨fun u =>
    if u = release_url "o" "r" then .ok [relA] (some "p2")
    else if u = "p2" then .ok [relB] (some "p3")
    else if u = "p3" then .ok [relC] none
    else .err 404,
   fun _ => .err 500, fun _ => .httpErr 500⟩

def relV : Release := mkRelease "v1.2.3" none
def relW : Release := mkRelease "v1.2.4" none

/-- `FrontendManager.init_frontend`: `except Exception` catches every raised
error (`Err.isException`), logs, and falls back to the default path;
`outOfFuel` (divergence) is not an exception and passes through. -/
def init_frontend (env : Env) (fuel : Nat) (version_string : String)
    (fs : FS) : RunOut :=
  match init_frontend_unsafe env fuel version_string fs with
  | ⟨.ok p, tr, fs1⟩ => ⟨.ok p, tr, fs1⟩
  | ⟨.error e, tr, fs1⟩ =>
    if e.isException then ⟨.ok DEFAULT_FRONTEND_PATH, tr, fs1⟩
    else ⟨.error e, tr, fs1⟩

/-! ## Helper lemmas -/

theorem splitFirst_append (sep : Char) (a b : List Char) (h : sep ∉ a) :
    splitFirst sep (a ++ sep :: b) = some (a, b) := by
  induction a with
  | nil => simp [splitFirst]
  | cons x a ih =>
    have hx : ¬(x = sep) := by
      intro e
      exact h (by simp [e])
    have h' : sep ∉ a := fun hm => h (List.mem_cons_of_mem x hm)
    simp [splitFirst, hx, ih h']

theorem splitFirst_some (sep : Char) :
    ∀ l a b, splitFirst sep l = some (a, b) → l = a ++ sep :: b ∧ sep ∉ a := by
  intro l
  induction l with
  | nil => intro a b h; simp [splitFirst] at h
  | cons c rest ih =>
    intro a b h
    by_cases hc : c = sep
    · subst hc
      simp only [splitFirst, if_pos rfl, Option.some.injEq, Prod.mk.injEq] at h
      obtain ⟨rfl, rfl⟩ := h
      exact ⟨rfl, by simp⟩
    · simp only [splitFirst, if_neg hc] at h
      cases hs : splitFirst sep rest with
      | none => rw [hs] at h; cases h
      | some p =>
        obtain ⟨a', b'⟩ := p
        rw [hs] at h
        simp only [Option.some.injEq, Prod.mk.injEq] at h
        obtain ⟨rfl, rfl⟩ := h
        obtain ⟨hrest, hni⟩ := ih a' b' hs
        subst hrest
        refine ⟨rfl, ?_⟩
        intro hm
        rcases List.mem_cons.mp hm with h1 | h1
        · exact hc h1.symm
        · exact hni h1

theorem isAlnumA_owner {c : Char} (h : isAlnumA c = true) : isOwnerChar c = true := by
  simp [isOwnerChar, h]

theorem ownerOk_iff (o : List Char) : ownerOk o = true ↔ OwnerShape o := by
  cases o with
  | nil =>
    simp [ownerOk, OwnerShape]
  | cons c rest =>
    simp only [ownerOk, Bool.and_eq_true, List.all_eq_true, decide_eq_true_eq, OwnerShape,
      List.length_cons, List.head?_cons, Option.some.injEq]
    constructor
    · rintro ⟨⟨hc, hall⟩, hlen⟩
      refine ⟨by omega, by omega, ?_, ?_⟩
      · intro x hx
        rcases List.mem_cons.mp hx with rfl | hx
        · exact isAlnumA_owner hc
        · exact hall x hx
      · intro x hx
        subst hx
        exact hc
    · rintro ⟨-, hlen, hall, hhd⟩
      refine ⟨⟨hhd c rfl, ?_⟩, by omega⟩
      intro x hx
      exact hall x (List.mem_cons_of_mem c hx)

theorem repoOk_iff (r : List Char) : repoOk r = true ↔ RepoShape r := by
  cases r with
  | nil => simp [repoOk, RepoShape]
  | cons c rest =>
    simp only [repoOk, Bool.and_eq_true, List.all_eq_true, RepoShape, List.length_cons,
      List.isEmpty_cons, Bool.not_eq_true']
    constructor
    · rintro ⟨-, hall⟩
      exact ⟨by omega, hall⟩
    · rintro ⟨-, hall⟩
      exact ⟨by simp, hall⟩

theorem digitRun_iff (l : List Char) :
    digitRun l = true ↔ l ≠ [] ∧ ∀ x ∈ l, x.isDigit = true := by
  cases l with
  | nil => simp [digitRun]
  | cons c rest =>
    simp [digitRun, List.all_eq_true]

theorem semverCore_sound (v : List Char) (h : semverCore v = true) :
    ∃ a b c, v = a ++ '.' :: (b ++ '.' :: c) ∧
      digitRun a = true ∧ digitRun b = true ∧ digitRun c = true := by
  unfold semverCore at h
  split at h
  · exact absurd h (by simp)
  · rename_i a rest hs
    split at h
    · exact absurd h (by simp)
    · rename_i b c hs2
      simp only [Bool.and_eq_true] at h
      obtain ⟨hv, hni⟩ := splitFirst_some '.' v a rest hs
      obtain ⟨hrest, hni2⟩ := splitFirst_some '.' rest b c hs2
      subst hrest
      exact ⟨a, b, c, hv, h.1.1, h.1.2, h.2⟩

theorem digitRun_no_dot {a : List Char} (h : digitRun a = true) : '.' ∉ a := by
  intro hm
  have := ((digitRun_iff a).mp h).2 '.' hm
  exact absurd this (by decide)

theorem semverCore_complete (a b c : List Char)
    (ha : digitRun a = true) (hb : digitRun b = true) (hc : digitRun c = true) :
    semverCore (a ++ '.' :: (b ++ '.' :: c)) = true := by
  have h1 := splitFirst_append '.' a (b ++ '.' :: c) (digitRun_no_dot ha)
  have h2 := splitFirst_append '.' b c (digitRun_no_dot hb)
  simp [semverCore, h1, h2, ha, hb, hc]

theorem semverOk_sound (v : List Char) (h : semverOk v = true) : SemShape v := by
  rw [semverOk.eq_def] at h
  split at h
  · rename_i rest
    obtain ⟨a, b, c, hv, ha, hb, hc⟩ := semverCore_sound rest h
    exact ⟨a, b, c, Or.inr (by rw [hv]),
      ((digitRun_iff a).mp ha).1, ((digitRun_iff a).mp ha).2,
      ((digitRun_iff b).mp hb).1, ((digitRun_iff b).mp hb).2,
      ((digitRun_iff c).mp hc).1, ((digitRun_iff c).mp hc).2⟩
  · obtain ⟨a, b, c, hv, ha, hb, hc⟩ := semverCore_sound _ h
    exact ⟨a, b, c, Or.inl hv,
      ((digitRun_iff a).mp ha).1, ((digitRun_iff a).mp ha).2,
      ((digitRun_iff b).mp hb).1, ((digitRun_iff b).mp hb).2,
      ((digitRun_iff c).mp hc).1, ((digitRun_iff c).mp hc).2⟩

theorem semverOk_complete (v : List Char) (h : SemShape v) : semverOk v = true := by
  obtain ⟨a, b, c, hv, ha1, ha2, hb1, hb2, hc1, hc2⟩ := h
  have ha : digitRun a = true := (digitRun_iff a).mpr ⟨ha1, ha2⟩
  have hb : digitRun b = true := (digitRun_iff b).mpr ⟨hb1, hb2⟩
  have hc : digitRun c = true := (digitRun_iff c).mpr ⟨hc1, hc2⟩
  rcases hv with hv | hv
  · subst hv
    rw [semverOk.eq_def]
    split
    · rename_i rest heq
      exfalso
      cases a with
      | nil => exact ha1 rfl
      | cons x a' =>
        have hx : x = 'v' := by
          have := congrArg List.head? heq
          simpa using this
        have := ha2 x (by simp)
        rw [hx] at this
        exact absurd this (by decide)
    · exact semverCore_complete a b c ha hb hc
  · subst hv
    rw [semverOk.eq_def]
    exact semverCore_complete a b c ha hb hc

theorem versionOk_sound (v : List Char) (h : versionOk v = true) : VersionShape v := by
  unfold versionOk at h
  rcases (Bool.or_eq_true _ _).mp h with h | h
  · exact Or.inr (semverOk_sound v h)
  · exact Or.inl (by simpa using h)

theorem versionOk_complete (v : List Char) (h : VersionShape v) : versionOk v = true := by
  unfold versionOk
  rcases h with h | h
  · simp [h]
  · simp [semverOk_complete v h]

theorem coreMatch_sound (l o r v : List Char) (h : coreMatch l = some (o, r, v)) :
    l = o ++ '/' :: (r ++ '@' :: v) ∧ OwnerShape o ∧ RepoShape r ∧ VersionShape v := by
  unfold coreMatch at h
  split at h
  · exact absurd h (by simp)
  · rename_i o' rest hs
    split at h
    · exact absurd h (by simp)
    · rename_i r' v' hs2
      split at h
      · rename_i hcond
        simp only [Option.some.injEq, Prod.mk.injEq] at h
        simp only [Bool.and_eq_true] at hcond
        obtain ⟨hl, -⟩ := splitFirst_some '/' l o' rest hs
        obtain ⟨hrest, -⟩ := splitFirst_some '@' rest r' v' hs2
        subst hrest
        obtain ⟨rfl, rfl, rfl⟩ := h
        exact ⟨hl, (ownerOk_iff _).mp hcond.1.1, (repoOk_iff _).mp hcond.1.2,
          versionOk_sound _ hcond.2⟩
      · exact absurd h (by simp)

theorem coreMatch_complete (l o r v : List Char) (hl : l = o ++ '/' :: (r ++ '@' :: v))
    (ho : OwnerShape o) (hr : RepoShape r) (hv : VersionShape v) :
    coreMatch l = some (o, r, v) := by
  have hno : '/' ∉ o := by
    intro hm
    exact absurd (ho.2.2.1 '/' hm) (by decide)
  have hna : '@' ∉ r := by
    intro hm
    exact absurd (hr.2 '@' hm) (by decide)
  have h1 := splitFirst_append '/' o (r ++ '@' :: v) hno
  have h2 := splitFirst_append '@' r v hna
  subst hl
  simp [coreMatch, h1, h2, (ownerOk_iff o).mpr ho, (repoOk_iff r).mpr hr,
    versionOk_complete v hv]

theorem OwnerShape_no_nl {o : List Char} (h : OwnerShape o) : '\n' ∉ o :=
  fun hm => absurd (h.2.2.1 '\n' hm) (by decide)

theorem RepoShape_no_nl {r : List Char} (h : RepoShape r) : '\n' ∉ r :=
  fun hm => absurd (h.2 '\n' hm) (by decide)

theorem semBody_no_nl (a b c : List Char)
    (ha2 : ∀ x ∈ a, x.isDigit = true) (hb2 : ∀ x ∈ b, x.isDigit = true)
    (hc2 : ∀ x ∈ c, x.isDigit = true) : '\n' ∉ a ++ '.' :: (b ++ '.' :: c) := by
  intro hm
  simp only [List.mem_append, List.mem_cons] at hm
  rcases hm with h | h | h | h | h
  · exact absurd (ha2 _ h) (by decide)
  · exact absurd h (by decide)
  · exact absurd (hb2 _ h) (by decide)
  · exact absurd h (by decide)
  · exact absurd (hc2 _ h) (by decide)

theorem VersionShape_no_nl {v : List Char} (h : VersionShape v) : '\n' ∉ v := by
  intro hm
  rcases h with h | h
  · subst h
    exact absurd hm (by decide)
  · obtain ⟨a, b, c, hv, -, ha2, -, hb2, -, hc2⟩ := h
    rcases hv with hv | hv
    · subst hv
      exact semBody_no_nl a b c ha2 hb2 hc2 hm
    · subst hv
      rcases List.mem_cons.mp hm with h1 | h1
      · exact absurd h1 (by decide)
      · exact semBody_no_nl a b c ha2 hb2 hc2 h1

theorem getLast_nl_decomp {l : List Char} (h : l.getLast? = some '\n') :
    l = l.dropLast ++ ['\n'] := by
  have hne : l ≠ [] := by
    intro e
    subst e
    simp at h
  have h1 := List.dropLast_append_getLast hne
  have h2 := List.getLast?_eq_getLast l hne
  rw [h2] at h
  injection h with h3
  rw [← h3]
  exact h1.symm

/-- Claim C3 (amended): `parse_version_string` succeeds exactly on strings
matching the version-spec pattern — owner of 1–39 alphanumeric/hyphen
characters starting alphanumeric, '/', repo of alphanumeric/underscore/dot/
hyphen characters, '@', then "latest" or an optionally v-prefixed
MAJOR.MINOR.PATCH — POSSIBLY FOLLOWED BY A SINGLE TRAILING NEWLINE (Python's
`$` also matches just before a terminal newline), returning exactly the three
captured (owner, repo, version) substrings, the newline excluded; on every
other string it fails with an InvalidVersionSpec error carrying the offending
string, with no partial parses. -/
theorem claim_C3 (value : String) :
    (∀ o r v : List Char,
       parse_version_string value = .ok (⟨o⟩, ⟨r⟩, ⟨v⟩) ↔
         ((value.data = o ++ '/' :: (r ++ '@' :: v) ∨
           value.data = (o ++ '/' :: (r ++ '@' :: v)) ++ ['\n']) ∧
          OwnerShape o ∧ RepoShape r ∧ VersionShape v)) ∧
    ((¬ ∃ o r v : List Char,
        (value.data = o ++ '/' :: (r ++ '@' :: v) ∨
         value.data = (o ++ '/' :: (r ++ '@' :: v)) ++ ['\n']) ∧
        OwnerShape o ∧ RepoShape r ∧ VersionShape v) →
      parse_version_string value = .error (.invalidVersionSpec value)) := by
  constructor
  · intro o r v
    constructor
    · intro h
      unfold parse_version_string at h
      cases hg : regexGroups value with
      | none => rw [hg] at h; cases h
      | some g =>
        rw [hg] at h
        injection h with h
        subst h
        unfold regexGroups at hg
        cases hc : coreMatch value.data with
        | some t =>
          obtain ⟨o₀, r₀, v₀⟩ := t
          rw [hc] at hg
          simp only [Option.some.injEq, Prod.mk.injEq] at hg
          obtain ⟨h1, h2, h3⟩ := hg
          injection h1 with e1
          injection h2 with e2
          injection h3 with e3
          subst e1
          subst e2
          subst e3
          obtain ⟨hl, ho, hr, hv⟩ := coreMatch_sound _ _ _ _ hc
          exact ⟨Or.inl hl, ho, hr, hv⟩
        | none =>
          rw [hc] at hg
          by_cases hnl : value.data.getLast? = some '\n'
          · rw [if_pos hnl] at hg
            cases hc2 : coreMatch value.data.dropLast with
            | none => rw [hc2] at hg; cases hg
            | some t =>
              obtain ⟨o₀, r₀, v₀⟩ := t
              rw [hc2] at hg
              simp only [Option.some.injEq, Prod.mk.injEq] at hg
              obtain ⟨h1, h2, h3⟩ := hg
              injection h1 with e1
              injection h2 with e2
              injection h3 with e3
              subst e1
              subst e2
              subst e3
              obtain ⟨hl, ho, hr, hv⟩ := coreMatch_sound _ _ _ _ hc2
              refine ⟨Or.inr ?_, ho, hr, hv⟩
              rw [← hl]
              exact getLast_nl_decomp hnl
          · rw [if_neg hnl] at hg
            cases hg
    · rintro ⟨hd | hd, ho, hr, hv⟩
      · have hc := coreMatch_complete _ o r v hd ho hr hv
        unfold parse_version_string regexGroups
        rw [hc]
      · have hnl : value.data.getLast? = some '\n' := by
          rw [hd]
          exact List.getLast?_concat _
        have hdl : value.data.dropLast = o ++ '/' :: (r ++ '@' :: v) := by
          rw [hd]
          exact List.dropLast_concat
        have hc2 := coreMatch_complete _ o r v hdl ho hr hv
        have hc : coreMatch value.data = none := by
          cases hcc : coreMatch value.data with
          | none => rfl
          | some t =>
            obtain ⟨o', r', v'⟩ := t
            obtain ⟨hl', ho', hr', hv'⟩ := coreMatch_sound _ _ _ _ hcc
            exfalso
            have hmem : '\n' ∈ value.data := by
              rw [hd]
              simp
            rw [hl'] at hmem
            simp only [List.mem_append, List.mem_cons] at hmem
            rcases hmem with h1 | h1 | h1 | h1 | h1
            · exact OwnerShape_no_nl ho' h1
            · exact absurd h1 (by decide)
            · exact RepoShape_no_nl hr' h1
            · exact absurd h1 (by decide)
            · exact VersionShape_no_nl hv' h1
        unfold parse_version_string regexGroups
        simp only [hc]
        rw [if_pos hnl, hc2]
  · intro hne
    unfold parse_version_string regexGroups
    cases hc : coreMatch value.data with
    | some t =>
      obtain ⟨o₀, r₀, v₀⟩ := t
      obtain ⟨hl, ho, hr, hv⟩ := coreMatch_sound _ _ _ _ hc
      exact absurd ⟨o₀, r₀, v₀, Or.inl hl, ho, hr, hv⟩ hne
    | none =>
      by_cases hnl : value.data.getLast? = some '\n'
      · cases hc2 : coreMatch value.data.dropLast with
        | none =>
          rw [if_pos hnl]
        | some t =>
          obtain ⟨o₀, r₀, v₀⟩ := t
          obtain ⟨hl, ho, hr, hv⟩ := coreMatch_sound _ _ _ _ hc2
          have hdec := getLast_nl_decomp hnl
          refine absurd ⟨o₀, r₀, v₀, Or.inr ?_, ho, hr, hv⟩ hne
          rw [← hl]
          exact hdec
      · rw [if_neg hnl]

/-- Counterexample to claim C3 as stated: the string "a/b@latest\n" does NOT
have the form owner ++ "/" ++ repo ++ "@" ++ version demanded by the
version-spec pattern (no decomposition exists), yet `parse_version_string`
accepts it, because Python's `$` anchor also matches just before a trailing
newline. -/
theorem claim_C3_counterexample :
    parse_version_string "a/b@latest\n" = .ok ("a", "b", "latest") ∧
    ¬ ∃ o r v : List Char, "a/b@latest\n".data = o ++ '/' :: (r ++ '@' :: v) ∧
        OwnerShape o ∧ RepoShape r ∧ VersionShape v := by
  constructor
  · decide
  · rintro ⟨o, r, v, hd, ho, hr, hv⟩
    have hmem : '\n' ∈ "a/b@latest\n".data := by decide
    rw [hd] at hmem
    simp only [List.mem_append, List.mem_cons] at hmem
    rcases hmem with h1 | h1 | h1 | h1 | h1
    · exact OwnerShape_no_nl ho h1
    · exact absurd h1 (by decide)
    · exact RepoShape_no_nl hr h1
    · exact absurd h1 (by decide)
    · exact VersionShape_no_nl hv h1

/-- Witness for claim C3: a concrete accepted spec string with its captured
groups, and a concrete rejected string with its InvalidVersionSpec error. -/
theorem claim_C3_witness :
    parse_version_string "foo/bar@latest" = .ok ("foo", "bar", "latest") ∧
    parse_version_string "x" = .error (.invalidVersionSpec "x") := by
  constructor
  · have ho : OwnerShape "foo".data := by
      refine ⟨by decide, by decide, by decide, ?_⟩
      intro x hx
      have hf : "foo".data.head? = some 'f' := by decide
      rw [hf] at hx
      injection hx with h
      rw [← h]
      decide
    have hr : RepoShape "bar".data := ⟨by decide, by decide⟩
    have hv : VersionShape "latest".data := Or.inl rfl
    exact ((claim_C3 "foo/bar@latest").1 "foo".data "bar".data "latest".data).mpr
      ⟨Or.inl (by decide), ho, hr, hv⟩
  · have hne : ¬ ∃ o r v : List Char,
        ("x".data = o ++ '/' :: (r ++ '@' :: v) ∨
         "x".data = (o ++ '/' :: (r ++ '@' :: v)) ++ ['\n']) ∧
        OwnerShape o ∧ RepoShape r ∧ VersionShape v := by
      rintro ⟨o, r, v, hd | hd, ho, hr, hv⟩
      · have hm : '/' ∈ "x".data := by
          rw [hd]
          simp
        exact absurd hm (by decide)
      · have hm : '/' ∈ "x".data := by
          rw [hd]
          simp
        exact absurd hm (by decide)
    exact (claim_C3 "x").2 hne

/-- Claim C1: `init_frontend` never propagates a raised error: for every
version string and environment, whenever the inner run does not diverge
(`outOfFuel` models non-termination of the pagination loop, which is not a
raised exception), the caller receives a path — the inner result's path on
success, and the bundled default frontend path when any error of any kind
was raised. -/
theorem claim_C1 (env : Env) (fuel : Nat) (vs : String) (fs : FS)
    (h : ( init_frontend_unsafe env fuel vs fs).res ≠ .error .outOfFuel) :
    ∃ p, (init_frontend env fuel vs fs).res = .ok p ∧
      (( init_frontend_unsafe env fuel vs fs).res = .ok p ∨
       ((∃ e, ( init_frontend_unsafe env fuel vs fs).res = .error e ∧
          e.isException = true) ∧ p = DEFAULT_FRONTEND_PATH)) := by
  rcases hE : init_frontend_unsafe env fuel vs fs with ⟨res, tr, fs1⟩
  rw [hE] at h
  unfold init_frontend
  rw [hE]
  cases res with
  | ok p => exact ⟨p, rfl, Or.inl rfl⟩
  | error e =>
    have hex : e.isException = true := by
      cases e
      case outOfFuel => exact absurd rfl h
      all_goals rfl
    refine ⟨DEFAULT_FRONTEND_PATH, ?_, Or.inr ⟨⟨e, rfl, hex⟩, rfl⟩⟩
    simp [hex]

/-- Witness for claim C1: on a malformed version string in an all-failing
environment, the caller still receives a path. -/
theorem claim_C1_witness :
    ∃ p, (init_frontend env500 0 "nonsense" fs0).res = .ok p ∧
      (( init_frontend_unsafe env500 0 "nonsense" fs0).res = .ok p ∨
       ((∃ e, ( init_frontend_unsafe env500 0 "nonsense" fs0).res = .error e ∧
          e.isException = true) ∧ p = DEFAULT_FRONTEND_PATH)) :=
  claim_C1 env500 0 "nonsense" fs0 (by decide)

theorem find_release_ok_iff (version : String) :
    ∀ rs rel, find_release version rs = .ok rel ↔
      ∃ pre post, rs = pre ++ rel :: post ∧ TagMatches version rel ∧
        ∀ x ∈ pre, ¬ TagMatches version x := by
  intro rs
  induction rs with
  | nil =>
    intro rel
    constructor
    · intro h
      exact absurd h (by simp [find_release])
    · rintro ⟨pre, post, h, -, -⟩
      exact absurd h (by simp)
  | cons r rs ih =>
    intro rel
    by_cases hm : r.tag_name = version ∨ r.tag_name = "v" ++ version
    · constructor
      · intro h
        rw [show find_release version (r :: rs) = .ok r by simp [find_release, hm]] at h
        injection h with h
        subst h
        exact ⟨[], rs, rfl, hm, by simp⟩
      · rintro ⟨pre, post, hsplit, hrel, hpre⟩
        cases pre with
        | nil =>
          simp only [List.nil_append, List.cons.injEq] at hsplit
          obtain ⟨h1, h2⟩ := hsplit
          subst h1
          simp [find_release, hm]
        | cons y pre' =>
          simp only [List.cons_append, List.cons.injEq] at hsplit
          obtain ⟨h1, h2⟩ := hsplit
          subst h1
          exact absurd hm (hpre r (by simp))
    · constructor
      · intro h
        rw [show find_release version (r :: rs) = find_release version rs by
          simp [find_release, hm]] at h
        obtain ⟨pre, post, hsplit, hrel, hpre⟩ := (ih rel).mp h
        refine ⟨r :: pre, post, by rw [hsplit, List.cons_append], hrel, ?_⟩
        intro x hx
        rcases List.mem_cons.mp hx with rfl | hx
        · exact hm
        · exact hpre x hx
      · rintro ⟨pre, post, hsplit, hrel, hpre⟩
        cases pre with
        | nil =>
          simp only [List.nil_append, List.cons.injEq] at hsplit
          obtain ⟨h1, h2⟩ := hsplit
          subst h1
          exact absurd hrel hm
        | cons y pre' =>
          simp only [List.cons_append, List.cons.injEq] at hsplit
          obtain ⟨h1, h2⟩ := hsplit
          subst h1
          rw [show find_release version (r :: rs) = find_release version rs by
            simp [find_release, hm]]
          exact (ih rel).mpr ⟨pre', post, h2, hrel, fun x hx => hpre x (List.mem_cons_of_mem r hx)⟩

theorem find_release_err_iff (version : String) :
    ∀ rs, find_release version rs = .error (.versionNotFound version) ↔
      ∀ x ∈ rs, ¬ TagMatches version x := by
  intro rs
  induction rs with
  | nil => simp [find_release]
  | cons r rs ih =>
    by_cases hm : r.tag_name = version ∨ r.tag_name = "v" ++ version
    · rw [show find_release version (r :: rs) = .ok r by simp [find_release, hm]]
      constructor
      · intro h
        exact absurd h (by simp)
      · intro h
        exact absurd hm (h r (by simp))
    · rw [show find_release version (r :: rs) = find_release version rs by
        simp [find_release, hm]]
      rw [ih]
      constructor
      · intro h x hx
        rcases List.mem_cons.mp hx with rfl | hx
        · exact hm
        · exact h x hx
      · intro h x hx
        exact h x (List.mem_cons_of_mem r hx)

/-- Claim C4: `get_release` returns the latest-release endpoint's result when
the version is "latest" (its trace is exactly the one latest-endpoint GET, so
the release list is never scanned); for any other version it scans the
returned release list in order and yields the first release whose `tag_name`
equals the version or "v" + the version, and errors with VersionNotFound
carrying the requested version when no release matches. -/
theorem claim_C4 (env : Env) (fuel : Nat) (owner repo version : String) :
    (version = "latest" →
       get_release env fuel owner repo version = latest_release env owner repo ∧
       (get_release env fuel owner repo version).2 =
         [.getLatest (release_url owner repo ++ "/latest")]) ∧
    (version ≠ "latest" → ∀ rs tr, all_releases env fuel owner repo = (.ok rs, tr) →
       get_release env fuel owner repo version = (find_release version rs, tr)) ∧
    (∀ rs rel, find_release version rs = .ok rel ↔
       ∃ pre post, rs = pre ++ rel :: post ∧ TagMatches version rel ∧
         ∀ x ∈ pre, ¬ TagMatches version x) ∧
    (∀ rs, find_release version rs = .error (.versionNotFound version) ↔
       ∀ x ∈ rs, ¬ TagMatches version x) := by
  refine ⟨?_, ?_, find_release_ok_iff version, find_release_err_iff version⟩
  · intro hv
    subst hv
    constructor
    · simp [get_release]
    · have h1 : get_release env fuel owner repo "latest" = latest_release env owner repo := by
        simp [get_release]
      rw [h1]
      cases h2 : env.latest (release_url owner repo ++ "/latest") with
      | ok rel => simp [latest_release, h2]
      | err s => simp [latest_release, h2]
  · intro hv rs tr hall
    unfold get_release
    rw [if_neg hv, hall]

/-- Witness for claim C4: "latest" goes to the latest endpoint; a concrete
list containing tag "v1.2.3" resolves version "1.2.3" to that release; a list
with only "v1.2.4" yields VersionNotFound "1.2.3". -/
theorem claim_C4_witness :
    get_release env500 0 "o" "r" "latest" = latest_release env500 "o" "r" ∧
    find_release "1.2.3" [relV] = .ok relV ∧
    find_release "1.2.3" [relW] = .error (.versionNotFound "1.2.3") := by
  refine ⟨((claim_C4 env500 0 "o" "r" "latest").1 rfl).1, ?_, ?_⟩
  · exact ((claim_C4 env500 0 "o" "r" "1.2.3").2.2.1 [relV] relV).mpr
      ⟨[], [], rfl, Or.inr (by decide), by simp⟩
  · refine ((claim_C4 env500 0 "o" "r" "1.2.3").2.2.2 [relW]).mpr ?_
    intro x hx
    rw [List.mem_singleton] at hx
    subst hx
    rintro (hm | hm)
    · exact absurd hm (by decide)
    · exact absurd hm (by decide)

theorem all_releases_go_ok (env : Env) :
    ∀ (pages : List (String × List Release)) (start : Option String) (fuel : Nat)
      (acc : List Release) (tr : List Ev),
      chainSeg env start pages none → pages.length ≤ fuel →
      all_releases_go env fuel start acc tr =
        (.ok (acc ++ (pages.map Prod.snd).flatten),
         tr ++ pages.map (fun p => Ev.getPage p.1)) := by
  intro pages
  induction pages with
  | nil =>
    intro start fuel acc tr hch hlen
    have hs : start = none := hch
    subst hs
    cases fuel <;> simp [all_releases_go]
  | cons p rest ih =>
    obtain ⟨u, body⟩ := p
    intro start fuel acc tr hch hlen
    obtain ⟨hstart, nxt, hpage, hch'⟩ := hch
    subst hstart
    cases fuel with
    | zero => simp at hlen
    | succ f =>
      have hlen' : rest.length ≤ f := by
        simp only [List.length_cons] at hlen
        omega
      rw [show all_releases_go env (f + 1) (some u) acc tr =
            all_releases_go env f nxt (acc ++ body) (tr ++ [Ev.getPage u]) by
          simp [all_releases_go, hpage]]
      rw [ih nxt f (acc ++ body) (tr ++ [Ev.getPage u]) hch' hlen']
      simp

theorem all_releases_go_err (env : Env) :
    ∀ (pages : List (String × List Release)) (start : Option String) (fuel : Nat)
      (acc : List Release) (tr : List Ev) (ubad : String) (s : Nat),
      chainSeg env start pages (some ubad) → env.page ubad = .err s →
      pages.length < fuel →
      all_releases_go env fuel start acc tr =
        (.error (.httpError s),
         tr ++ pages.map (fun p => Ev.getPage p.1) ++ [Ev.getPage ubad]) := by
  intro pages
  induction pages with
  | nil =>
    intro start fuel acc tr ubad s hch herr hlen
    have hs : start = some ubad := hch
    subst hs
    cases fuel with
    | zero => exact absurd hlen (by simp)
    | succ f => simp [all_releases_go, herr]
  | cons p rest ih =>
    obtain ⟨u, body⟩ := p
    intro start fuel acc tr ubad s hch herr hlen
    obtain ⟨hstart, nxt, hpage, hch'⟩ := hch
    subst hstart
    cases fuel with
    | zero => simp at hlen
    | succ f =>
      have hlen' : rest.length < f := by
        simp only [List.length_cons] at hlen
        omega
      rw [show all_releases_go env (f + 1) (some u) acc tr =
            all_releases_go env f nxt (acc ++ body) (tr ++ [Ev.getPage u]) by
          simp [all_releases_go, hpage]]
      rw [ih nxt f (acc ++ body) (tr ++ [Ev.getPage u]) ubad s hch' herr hlen']
      simp

/-- Claim C5: `all_releases` follows each page's "next" link and returns the
in-order concatenation of every page's release array; a non-success status on
any page surfaces an HttpError immediately, after exactly one GET per page
visited and none after the failing one (no retry). -/
theorem claim_C5 (env : Env) (fuel : Nat) (owner repo : String)
    (pages : List (String × List Release)) (ubad : String) (s : Nat) :
    (chainSeg env (some (release_url owner repo)) pages none → pages.length ≤ fuel →
       all_releases env fuel owner repo =
         (.ok (pages.map Prod.snd).flatten, pages.map (fun p => Ev.getPage p.1))) ∧
    (chainSeg env (some (release_url owner repo)) pages (some ubad) →
       env.page ubad = .err s → pages.length < fuel →
       all_releases env fuel owner repo =
         (.error (.httpError s),
          pages.map (fun p => Ev.getPage p.1) ++ [Ev.getPage ubad])) := by
  constructor
  · intro hch hlen
    unfold all_releases
    rw [all_releases_go_ok env pages _ fuel [] [] hch hlen]
    simp
  · intro hch herr hlen
    unfold all_releases
    rw [all_releases_go_err env pages _ fuel [] [] ubad s hch herr hlen]
    simp

/-- Witness for claim C5: three pages, the first two with a "next" link,
concatenate in order with one GET per page. -/
theorem claim_C5_witness :
    all_releases env3 3 "o" "r" =
      (.ok [relA, relB, relC],
       [Ev.getPage (release_url "o" "r"), Ev.getPage "p2", Ev.getPage "p3"]) := by
  have hch : chainSeg env3 (some (release_url "o" "r"))
      [(release_url "o" "r", [relA]), ("p2", [relB]), ("p3", [relC])] none :=
    ⟨rfl, some "p2", by decide, rfl, some "p3", by decide, rfl, none, by decide, rfl⟩
  have h := (claim_C5 env3 3 "o" "r"
    [(release_url "o" "r", [relA]), ("p2", [relB]), ("p3", [relC])] "unused" 0).1 hch
    (by decide)
  simpa using h

theorem find_asset_url_found :
    ∀ (pre : List Asset) (a : Asset) (post : List Asset),
      (∀ b ∈ pre, NamedNonDist b) → a.name = some "dist.zip" →
      find_asset_url (pre ++ a :: post) = .ok (some a.url) := by
  intro pre
  induction pre with
  | nil =>
    intro a post hpre ha
    simp [find_asset_url, ha]
  | cons b pre ih =>
    intro a post hpre ha
    obtain ⟨nb, hnb, hne⟩ := hpre b (by simp)
    simp only [List.cons_append, find_asset_url, hnb]
    rw [if_neg hne]
    exact ih a post (fun x hx => hpre x (List.mem_cons_of_mem b hx)) ha

theorem find_asset_url_none :
    ∀ l : List Asset, (∀ b ∈ l, NamedNonDist b) → find_asset_url l = .ok none := by
  intro l
  induction l with
  | nil => intro _; rfl
  | cons b rest ih =>
    intro h
    obtain ⟨nb, hnb, hne⟩ := h b (by simp)
    simp only [find_asset_url, hnb]
    rw [if_neg hne]
    exact ih (fun x hx => h x (List.mem_cons_of_mem b hx))

theorem find_asset_url_keyerr :
    ∀ (pre : List Asset) (a : Asset) (post : List Asset),
      (∀ b ∈ pre, b.name ≠ some "dist.zip") → a.name = none →
      find_asset_url (pre ++ a :: post) = .error (.keyError "name") := by
  intro pre
  induction pre with
  | nil =>
    intro a post hpre ha
    simp [find_asset_url, ha]
  | cons b pre ih =>
    intro a post hpre ha
    cases hnb : b.name with
    | none => simp [find_asset_url, hnb]
    | some nb =>
      have hne : ¬(nb = "dist.zip") := by
        intro e
        exact hpre b (by simp) (by rw [hnb, e])
      simp only [List.cons_append, find_asset_url, hnb]
      rw [if_neg hne]
      exact ih a post (fun x hx => hpre x (List.mem_cons_of_mem b hx)) ha

/-- Claim C6 (amended): `download_release_asset_zip` scans the assets in
order for the first one named exactly "dist.zip"; when such an asset exists,
every earlier asset carries some other name, AND ITS URL IS NON-EMPTY, it
issues exactly one GET to that URL with an `Accept: application/octet-stream`
header and (on a successful fetch) extracts the zip content into the
destination directory; when every asset carries a name other than "dist.zip"
(in particular when the assets list is absent or empty) it raises
AssetNotFound with no network fetch and no filesystem writes. -/
theorem claim_C6 (env : Env) (rel : Release) (dest : String) (fs : FS) :
    (∀ pre a post, rel.assets.getD [] = pre ++ a :: post →
       (∀ b ∈ pre, NamedNonDist b) → a.name = some "dist.zip" → a.url ≠ "" →
       (download_release_asset_zip env rel dest fs).trace =
         [.getAsset a.url ACCEPT_OCTET] ∧
       ∀ names, env.asset a.url = .ok (.ok names) →
         download_release_asset_zip env rel dest fs =
           ⟨.ok (), [.getAsset a.url ACCEPT_OCTET], writeFiles fs dest names⟩) ∧
    ((∀ b ∈ rel.assets.getD [], NamedNonDist b) →
       download_release_asset_zip env rel dest fs = ⟨.error .assetNotFound, [], fs⟩) := by
  constructor
  · intro pre a post hsplit hpre ha hu
    have hf : find_asset_url (rel.assets.getD []) = .ok (some a.url) := by
      rw [hsplit]
      exact find_asset_url_found pre a post hpre ha
    have hred : download_release_asset_zip env rel dest fs =
        (match env.asset a.url with
         | .httpErr s => ⟨.error (.httpError s), [.getAsset a.url ACCEPT_OCTET], fs⟩
         | .ok (.ok names) =>
           ⟨.ok (), [.getAsset a.url ACCEPT_OCTET], writeFiles fs dest names⟩
         | .ok (.fail written) =>
           ⟨.error .badZip, [.getAsset a.url ACCEPT_OCTET], writeFiles fs dest written⟩) := by
      unfold download_release_asset_zip
      simp only [hf]
      rw [if_neg hu]
    constructor
    · rw [hred]
      cases env.asset a.url with
      | httpErr s => rfl
      | ok ext => cases ext <;> rfl
    · intro names hnames
      rw [hred, hnames]
  · intro hall
    unfold download_release_asset_zip
    simp only [find_asset_url_none _ hall]

/-- Counterexample to claim C6 as stated: (1) a release whose only asset IS
named "dist.zip" but has an empty-string URL does not get fetched — the
truthiness guard `if not asset_url:` fires and AssetNotFound is raised with
no GET; (2) a release whose only asset lacks a "name" key (so no asset is
named "dist.zip") raises a KeyError, not AssetNotFound. -/
theorem claim_C6_counterexample :
    download_release_asset_zip env500
      (mkRelease "v1.0.0" (some [⟨some "dist.zip", ""⟩])) "dest" fs0 =
        ⟨.error .assetNotFound, [], fs0⟩ ∧
    download_release_asset_zip env500
      (mkRelease "v1.0.0" (some [⟨none, "u"⟩])) "dest" fs0 =
        ⟨.error (.keyError "name"), [], fs0⟩ :=
  ⟨by decide, by decide⟩

/-- Witness for claim C6: a release with a decoy asset and a "dist.zip" asset
at URL "u" fetches exactly "u" with the octet-stream header and writes the
extracted file; a release with only the decoy raises AssetNotFound untouched. -/
theorem claim_C6_witness :
    download_release_asset_zip env0
      (mkRelease "v9.9.9" (some [⟨some "a", "q"⟩, ⟨some "dist.zip", "u"⟩])) "dest" fs0 =
        ⟨.ok (), [.getAsset "u" ACCEPT_OCTET], writeFiles fs0 "dest" ["index.html"]⟩ ∧
    download_release_asset_zip env0
      (mkRelease "v9.9.9" (some [⟨some "a", "q"⟩])) "dest" fs0 =
        ⟨.error .assetNotFound, [], fs0⟩ := by
  constructor
  · exact ((claim_C6 env0
      (mkRelease "v9.9.9" (some [⟨some "a", "q"⟩, ⟨some "dist.zip", "u"⟩])) "dest" fs0).1
      [⟨some "a", "q"⟩] ⟨some "dist.zip", "u"⟩ [] rfl
      (by
        intro b hb
        simp only [List.mem_singleton] at hb
        subst hb
        exact ⟨"a", rfl, by decide⟩)
      rfl (by decide)).2 ["index.html"] rfl
  · exact (claim_C6 env0 (mkRelease "v9.9.9" (some [⟨some "a", "q"⟩])) "dest" fs0).2
      (by
        intro b hb
        simp [mkRelease] at hb
        subst hb
        exact ⟨"a", rfl, by decide⟩)

/-- Claim C9: the scan reads each scanned asset's "name" key unconditionally,
so a nameless asset occurring before any "dist.zip"-named asset makes
`download_release_asset_zip` raise a key-lookup error (KeyError), not
AssetNotFound, with no fetch and no writes. -/
theorem claim_C9 (env : Env) (rel : Release) (dest : String) (fs : FS)
    (pre : List Asset) (a : Asset) (post : List Asset)
    (hsplit : rel.assets.getD [] = pre ++ a :: post)
    (hpre : ∀ b ∈ pre, b.name ≠ some "dist.zip") (ha : a.name = none) :
    download_release_asset_zip env rel dest fs = ⟨.error (.keyError "name"), [], fs⟩ := by
  unfold download_release_asset_zip
  rw [hsplit, find_asset_url_keyerr pre a post hpre ha]

/-- Witness for claim C9: a nameless asset before a well-formed "dist.zip"
asset yields the KeyError. -/
theorem claim_C9_witness :
    download_release_asset_zip env500
      (mkRelease "v1.0.0" (some [⟨none, "u"⟩, ⟨some "dist.zip", "x"⟩])) "dest" fs0 =
        ⟨.error (.keyError "name"), [], fs0⟩ :=
  claim_C9 env500 (mkRelease "v1.0.0" (some [⟨none, "u"⟩, ⟨some "dist.zip", "x"⟩]))
    "dest" fs0 [] ⟨none, "u"⟩ [⟨some "dist.zip", "x"⟩] rfl (by simp) rfl

/-- Claim C10: when the first "dist.zip" asset carries an empty-string URL,
the truthiness check `if not asset_url:` treats it as absent:
`download_release_asset_zip` raises AssetNotFound without attempting any
network fetch. -/
theorem claim_C10 (env : Env) (rel : Release) (dest : String) (fs : FS)
    (pre : List Asset) (a : Asset) (post : List Asset)
    (hsplit : rel.assets.getD [] = pre ++ a :: post)
    (hpre : ∀ b ∈ pre, NamedNonDist b) (ha : a.name = some "dist.zip")
    (hu : a.url = "") :
    download_release_asset_zip env rel dest fs = ⟨.error .assetNotFound, [], fs⟩ := by
  unfold download_release_asset_zip
  rw [hsplit, find_asset_url_found pre a post hpre ha, hu]
  rfl

/-- Witness for claim C10: the first "dist.zip" asset has URL ""; a later
"dist.zip" asset with a good URL is never reached, and no GET is issued. -/
theorem claim_C10_witness :
    download_release_asset_zip env500
      (mkRelease "v1.0.0"
        (some [⟨some "other", "y"⟩, ⟨some "dist.zip", ""⟩, ⟨some "dist.zip", "z"⟩]))
      "dest" fs0 = ⟨.error .assetNotFound, [], fs0⟩ :=
  claim_C10 env500
    (mkRelease "v1.0.0"
      (some [⟨some "other", "y"⟩, ⟨some "dist.zip", ""⟩, ⟨some "dist.zip", "z"⟩]))
    "dest" fs0 [⟨some "other", "y"⟩] ⟨some "dist.zip", ""⟩
    [⟨some "dist.zip", "z"⟩] rfl
    (by
      intro b hb
      rw [List.mem_singleton] at hb
      subst hb
      exact ⟨"other", rfl, by decide⟩)
    rfl rfl

theorem all_releases_go_trace (env : Env) :
    ∀ (fuel : Nat) (start : Option String) (acc : List Release) (tr : List Ev),
      ∃ s, (all_releases_go env fuel start acc tr).2 = tr ++ s ∧
        (∀ u, start = some u → 0 < fuel → s ≠ []) := by
  intro fuel
  induction fuel with
  | zero =>
    intro start acc tr
    cases start with
    | none =>
      exact ⟨[], by simp [all_releases_go], fun u hu hf => absurd hf (by omega)⟩
    | some u =>
      exact ⟨[], by simp [all_releases_go], fun u' hu hf => absurd hf (by omega)⟩
  | succ f ih =>
    intro start acc tr
    cases start with
    | none =>
      refine ⟨[], by simp [all_releases_go], ?_⟩
      intro u hu
      cases hu
    | some u =>
      cases hp : env.page u with
      | err s =>
        refine ⟨[Ev.getPage u], by simp [all_releases_go, hp], ?_⟩
        intro u' hu hf
        simp
      | ok body nxt =>
        obtain ⟨s, hs, -⟩ := ih nxt (acc ++ body) (tr ++ [Ev.getPage u])
        refine ⟨[Ev.getPage u] ++ s, ?_, ?_⟩
        · rw [show all_releases_go env (f + 1) (some u) acc tr =
              all_releases_go env f nxt (acc ++ body) (tr ++ [Ev.getPage u]) by
            simp [all_releases_go, hp]]
          rw [hs]
          simp
        · intro u' hu hf
          simp

theorem get_release_trace_ne (env : Env) (fuel : Nat) (ow rp ver : String)
    (hf : 0 < fuel) : (get_release env fuel ow rp ver).2 ≠ [] := by
  unfold get_release
  by_cases hv : ver = "latest"
  · rw [if_pos hv]
    unfold latest_release
    cases h2 : env.latest (release_url ow rp ++ "/latest") <;> simp [h2]
  · rw [if_neg hv]
    obtain ⟨s, hs, hne⟩ := all_releases_go_trace env fuel (some (release_url ow rp)) [] []
    have hs' : (all_releases env fuel ow rp).2 = s := by
      unfold all_releases
      rw [hs]
      simp
    have hsne : s ≠ [] := hne _ rfl hf
    rcases hall : all_releases env fuel ow rp with ⟨res, tr⟩
    rw [hall] at hs'
    have htr : tr = s := hs'
    cases res with
    | error e =>
      show tr ≠ []
      rw [htr]
      exact hsne
    | ok rs =>
      show tr ≠ []
      rw [htr]
      exact hsne

/-- Reduction of `init_frontend_unsafe` once the parse succeeded, the cache
probe missed, and the release resolved. -/
theorem unsafe_after (env : Env) (fuel : Nat) (vs : String) (fs : FS)
    (ow rp ver : String) (rel : Release) (tr : List Ev) (web_root : String)
    (hvs : vs ≠ DEFAULT_VERSION_STRING)
    (hparse : parse_version_string vs = .ok (ow, rp, ver))
    (hprobe : ¬(starts_with_v ver = true ∧
        pjoin (pjoin CUSTOM_FRONTENDS_ROOT (ow ++ "_" ++ rp)) (lstrip_v ver) ∈ fs.dirs))
    (hrel : get_release env fuel ow rp ver = (.ok rel, tr))
    (hweb : web_root = pjoin (pjoin CUSTOM_FRONTENDS_ROOT (folder_name ow rp))
        (lstrip_v rel.tag_name)) :
    (web_root ∈ fs.dirs →
       init_frontend_unsafe env fuel vs fs = ⟨.ok web_root, tr, fs⟩) ∧
    (web_root ∉ fs.dirs →
       init_frontend_unsafe env fuel vs fs =
         ⟨match (download_release_asset_zip env rel web_root (makedirs fs web_root)).res with
          | .ok _ => .ok web_root
          | .error e => .error e,
          tr ++ (download_release_asset_zip env rel web_root (makedirs fs web_root)).trace,
          if listdir (download_release_asset_zip env rel web_root
              (makedirs fs web_root)).fs web_root = []
          then rmdir (download_release_asset_zip env rel web_root
              (makedirs fs web_root)).fs web_root
          else (download_release_asset_zip env rel web_root (makedirs fs web_root)).fs⟩) := by
  subst hweb
  unfold init_frontend_unsafe
  rw [if_neg hvs]
  simp only [hparse]
  rw [if_neg hprobe]
  simp only [hrel]
  constructor
  · intro hmem
    rw [if_pos hmem]
  · intro hmem
    rw [if_neg hmem]
    rcases hd : (download_release_asset_zip env rel
        (pjoin (pjoin CUSTOM_FRONTENDS_ROOT (folder_name ow rp)) (lstrip_v rel.tag_name))
        (makedirs fs (pjoin (pjoin CUSTOM_FRONTENDS_ROOT (folder_name ow rp))
          (lstrip_v rel.tag_name)))) with ⟨dres, dtr, dfs⟩
    cases dres <;> rfl

theorem unsafe_trace (env : Env) (fuel : Nat) (vs : String) (fs : FS)
    (ow rp ver : String)
    (hvs : vs ≠ DEFAULT_VERSION_STRING)
    (hparse : parse_version_string vs = .ok (ow, rp, ver))
    (hprobe : ¬(starts_with_v ver = true ∧
        pjoin (pjoin CUSTOM_FRONTENDS_ROOT (ow ++ "_" ++ rp)) (lstrip_v ver) ∈ fs.dirs)) :
    ∃ rest, ( init_frontend_unsafe env fuel vs fs).trace =
      (get_release env fuel ow rp ver).2 ++ rest := by
  rcases hrel : get_release env fuel ow rp ver with ⟨gres, gtr⟩
  cases gres with
  | error e =>
    have hthis : init_frontend_unsafe env fuel vs fs = ⟨.error e, gtr, fs⟩ := by
      unfold init_frontend_unsafe
      rw [if_neg hvs]
      simp only [hparse]
      rw [if_neg hprobe]
      simp only [hrel]
    rw [hthis]
    exact ⟨[], by simp⟩
  | ok rel =>
    have h := unsafe_after env fuel vs fs ow rp ver rel gtr _ hvs hparse hprobe hrel rfl
    by_cases hmem : pjoin (pjoin CUSTOM_FRONTENDS_ROOT (folder_name ow rp))
        (lstrip_v rel.tag_name) ∈ fs.dirs
    · rw [h.1 hmem]
      exact ⟨[], by simp⟩
    · rw [h.2 hmem]
      exact ⟨(download_release_asset_zip env rel
        (pjoin (pjoin CUSTOM_FRONTENDS_ROOT (folder_name ow rp)) (lstrip_v rel.tag_name))
        (makedirs fs (pjoin (pjoin CUSTOM_FRONTENDS_ROOT (folder_name ow rp))
          (lstrip_v rel.tag_name)))).trace, rfl⟩

/-- Claim C2 (amended): the cache probe happens exactly when the parsed
version STARTS WITH "v" (a bare MAJOR.MINOR.PATCH version is never probed,
even though it is not "latest"); the probed path is
`{cacheRoot}/{owner}_{repo}/{version-without-leading-v}` and EXISTENCE ALONE
of that directory — empty or not — is the cache-hit signal: on a hit the path
is returned immediately with zero network calls and an untouched filesystem;
on a v-prefixed miss, and on any non-v-prefixed version, the network is
contacted. -/
theorem claim_C2 (env : Env) (fuel : Nat) (vs : String) (fs : FS)
    (ow rp ver : String)
    (hvs : vs ≠ DEFAULT_VERSION_STRING)
    (hparse : parse_version_string vs = .ok (ow, rp, ver)) :
    (starts_with_v ver = true →
       pjoin (pjoin CUSTOM_FRONTENDS_ROOT (ow ++ "_" ++ rp)) (lstrip_v ver) ∈ fs.dirs →
       init_frontend_unsafe env fuel vs fs =
         ⟨.ok (pjoin (pjoin CUSTOM_FRONTENDS_ROOT (ow ++ "_" ++ rp)) (lstrip_v ver)),
          [], fs⟩) ∧
    (starts_with_v ver = true →
       pjoin (pjoin CUSTOM_FRONTENDS_ROOT (ow ++ "_" ++ rp)) (lstrip_v ver) ∉ fs.dirs →
       0 < fuel → ( init_frontend_unsafe env fuel vs fs).trace ≠ []) ∧
    (starts_with_v ver = false → 0 < fuel →
       ( init_frontend_unsafe env fuel vs fs).trace ≠ []) := by
  refine ⟨?_, ?_, ?_⟩
  · intro hv hmem
    unfold init_frontend_unsafe
    rw [if_neg hvs]
    simp only [hparse]
    rw [if_pos ⟨hv, hmem⟩]
  · intro hv hmem hf
    obtain ⟨rest, hrest⟩ := unsafe_trace env fuel vs fs ow rp ver hvs hparse
      (fun hc => hmem hc.2)
    rw [hrest]
    intro hnil
    exact get_release_trace_ne env fuel ow rp ver hf (List.append_eq_nil.mp hnil).1
  · intro hv hf
    obtain ⟨rest, hrest⟩ := unsafe_trace env fuel vs fs ow rp ver hvs hparse
      (fun hc => by rw [hv] at hc; exact absurd hc.1 (by simp))
    rw [hrest]
    intro hnil
    exact get_release_trace_ne env fuel ow rp ver hf (List.append_eq_nil.mp hnil).1

/-- Counterexample to claim C2 as stated: (1) for parsed spec
"acme/widgets@2.0.0" — version "2.0.0", not "latest" — with the cache
directory present AND populated, the code still issues a network GET (the
probe only runs for v-prefixed versions) and does not return the cached path;
(2) for "acme/widgets@v2.0.0" with the cache directory present but EMPTY, the
code returns the cached path with zero network calls, so non-empty contents
is not part of the cache-hit signal. -/
theorem claim_C2_counterexample :
    init_frontend_unsafe env500 3 "acme/widgets@2.0.0" fsCached =
      ⟨.error (.httpError 500), [.getPage (release_url "acme" "widgets")], fsCached⟩ ∧
    init_frontend_unsafe env500 3 "acme/widgets@v2.0.0" fsEmptyCached =
      ⟨.ok "web_custom_versions/acme_widgets/2.0.0", [], fsEmptyCached⟩ :=
  ⟨by decide, by decide⟩

/-- Witness for claim C2: a v-prefixed version with the directory present is
served from the cache with no network events; a v-prefixed version with no
directory, and a bare version even with the directory present, both hit the
network. -/
theorem claim_C2_witness :
    init_frontend_unsafe env500 3 "acme/widgets@v2.0.0" fsCached =
      ⟨.ok "web_custom_versions/acme_widgets/2.0.0", [], fsCached⟩ ∧
    ( init_frontend_unsafe env500 3 "acme/widgets@v2.0.0" fs0).trace ≠ [] ∧
    ( init_frontend_unsafe env500 3 "acme/widgets@2.0.0" fsCached).trace ≠ [] := by
  refine ⟨?_, ?_, ?_⟩
  · have h := (claim_C2 env500 3 "acme/widgets@v2.0.0" fsCached "acme" "widgets" "v2.0.0"
      (by decide) (by decide)).1 (by decide) (by decide)
    exact h.trans (by decide)
  · exact (claim_C2 env500 3 "acme/widgets@v2.0.0" fs0 "acme" "widgets" "v2.0.0"
      (by decide) (by decide)).2.1 (by decide) (by decide) (by decide)
  · exact (claim_C2 env500 3 "acme/widgets@2.0.0" fsCached "acme" "widgets" "2.0.0"
      (by decide) (by decide)).2.2 (by decide) (by decide)

theorem lstrip_v_data_eq (l : List Char) :
    lstrip_v_data l = l.dropWhile (fun c => c = 'v') := by
  induction l with
  | nil => rfl
  | cons c rest ih =>
    by_cases hc : c = 'v'
    · subst hc
      rw [show lstrip_v_data ('v' :: rest) = lstrip_v_data rest from rfl, ih,
        List.dropWhile_cons]
      simp
    · rw [lstrip_v_data.eq_def]
      split
      · rename_i rest' heq
        injection heq with h1 h2
        exact absurd h1 hc
      · rw [List.dropWhile_cons]
        simp [hc]

theorem lstrip_v_head (l : List Char) :
    (lstrip_v_data l).head? ≠ some 'v' := by
  rw [lstrip_v_data_eq]
  cases h : l.dropWhile (fun c => c = 'v') with
  | nil => simp
  | cons a t =>
    have := List.head_dropWhile_not (fun c => decide (c = 'v')) (l := l) (by rw [h]; simp)
    simp_all

/-- Claim C7 (amended): the semantic version used for the cache path is the
release's tag_name with ALL leading "v" characters stripped (`lstrip("v")`
removes every leading "v", not just one), and the target directory is
`{cacheRoot}/{owner}_{repo}/{semanticVersion}`; the semantic version never
starts with "v". -/
theorem claim_C7 (env : Env) (fuel : Nat) (vs : String) (fs : FS)
    (ow rp ver : String) (rel : Release) (tr : List Ev)
    (hvs : vs ≠ DEFAULT_VERSION_STRING)
    (hparse : parse_version_string vs = .ok (ow, rp, ver))
    (hprobe : ¬(starts_with_v ver = true ∧
        pjoin (pjoin CUSTOM_FRONTENDS_ROOT (ow ++ "_" ++ rp)) (lstrip_v ver) ∈ fs.dirs))
    (hrel : get_release env fuel ow rp ver = (.ok rel, tr)) :
    (∀ p, ( init_frontend_unsafe env fuel vs fs).res = .ok p →
       p = pjoin (pjoin CUSTOM_FRONTENDS_ROOT (folder_name ow rp))
         (lstrip_v rel.tag_name)) ∧
    (lstrip_v rel.tag_name).data = rel.tag_name.data.dropWhile (fun c => c = 'v') ∧
    (lstrip_v rel.tag_name).data.head? ≠ some 'v' := by
  refine ⟨?_, lstrip_v_data_eq _, lstrip_v_head _⟩
  intro p hp
  have h := unsafe_after env fuel vs fs ow rp ver rel tr _ hvs hparse hprobe hrel rfl
  by_cases hmem : pjoin (pjoin CUSTOM_FRONTENDS_ROOT (folder_name ow rp))
      (lstrip_v rel.tag_name) ∈ fs.dirs
  · rw [h.1 hmem] at hp
    injection hp with hp
    exact hp.symm
  · rw [h.2 hmem] at hp
    cases hd : (download_release_asset_zip env rel
        (pjoin (pjoin CUSTOM_FRONTENDS_ROOT (folder_name ow rp)) (lstrip_v rel.tag_name))
        (makedirs fs (pjoin (pjoin CUSTOM_FRONTENDS_ROOT (folder_name ow rp))
          (lstrip_v rel.tag_name)))).res with
    | ok u =>
      rw [hd] at hp
      injection hp with hp
      exact hp.symm
    | error e =>
      rw [hd] at hp
      cases hp

/-- Counterexample to claim C7 as stated: a release tagged "vv2.0.0" (doubled
"v") resolved for "acme/widgets@v2.0.0" is cached under ".../2.0.0" — BOTH
leading v's are stripped — whereas stripping a single leading "v" as the
claim states would give ".../v2.0.0". -/
theorem claim_C7_counterexample :
    ( init_frontend_unsafe env0 3 "acme/widgets@v2.0.0" fs0).res =
      .ok (pjoin (pjoin CUSTOM_FRONTENDS_ROOT (folder_name "acme" "widgets")) "2.0.0") ∧
    strip_one_v "vv2.0.0" = "v2.0.0" ∧
    lstrip_v "vv2.0.0" = "2.0.0" ∧
    pjoin (pjoin CUSTOM_FRONTENDS_ROOT (folder_name "acme" "widgets"))
        (strip_one_v "vv2.0.0") ≠
      pjoin (pjoin CUSTOM_FRONTENDS_ROOT (folder_name "acme" "widgets")) "2.0.0" :=
  ⟨by decide, by decide, by decide, by decide⟩

/-- Witness for claim C7: a release tagged "v3.4.5" lands in
".../acme_widgets/3.4.5". -/
theorem claim_C7_witness :
    ("web_custom_versions/acme_widgets/3.4.5" : String) =
      pjoin (pjoin CUSTOM_FRONTENDS_ROOT (folder_name "acme" "widgets"))
        (lstrip_v rel1.tag_name) :=
  (claim_C7 env1 3 "acme/widgets@v3.4.5" fs0 "acme" "widgets" "v3.4.5" rel1
    [Ev.getPage (release_url "acme" "widgets")]
    (by decide) (by decide) (by decide) (by decide)).1
    "web_custom_versions/acme_widgets/3.4.5" (by decide)

theorem download_fs_dirs (env : Env) (rel : Release) (dest : String) (fs : FS) :
    (download_release_asset_zip env rel dest fs).fs.dirs = fs.dirs := by
  cases hf : find_asset_url (rel.assets.getD []) with
  | error e => simp [download_release_asset_zip, hf]
  | ok opt =>
    cases opt with
    | none => simp [download_release_asset_zip, hf]
    | some u =>
      by_cases hu : u = ""
      · simp [download_release_asset_zip, hf, hu]
      · cases ha : env.asset u with
        | httpErr s => simp [download_release_asset_zip, hf, hu, ha]
        | ok ext =>
          cases ext <;> simp [download_release_asset_zip, hf, hu, ha, writeFiles]

theorem download_fs_files (env : Env) (rel : Release) (dest : String) (fs : FS) :
    ∃ ns : List String, (download_release_asset_zip env rel dest fs).fs.files =
      fs.files ++ ns.map (fun n => (dest, n)) := by
  cases hf : find_asset_url (rel.assets.getD []) with
  | error e => exact ⟨[], by simp [download_release_asset_zip, hf]⟩
  | ok opt =>
    cases opt with
    | none => exact ⟨[], by simp [download_release_asset_zip, hf]⟩
    | some u =>
      by_cases hu : u = ""
      · exact ⟨[], by simp [download_release_asset_zip, hf, hu]⟩
      · cases ha : env.asset u with
        | httpErr s => exact ⟨[], by simp [download_release_asset_zip, hf, hu, ha]⟩
        | ok ext =>
          cases ext with
          | ok names =>
            exact ⟨names, by simp [download_release_asset_zip, hf, hu, ha, writeFiles]⟩
          | fail written =>
            exact ⟨written, by simp [download_release_asset_zip, hf, hu, ha, writeFiles]⟩

theorem listdir_append (fs : FS) (d : String) (ns : List String) (g : FS)
    (hg : g.files = fs.files ++ ns.map (fun n => (d, n))) :
    listdir g d = listdir fs d ++ ns := by
  unfold listdir
  rw [hg, List.filter_append, List.map_append]
  congr 1
  have h1 : (ns.map (fun n => (d, n))).filter (fun f => f.1 = d) =
      ns.map (fun n => (d, n)) := by
    apply List.filter_eq_self.mpr
    intro a ha
    obtain ⟨n, hn, rfl⟩ := List.mem_map.mp ha
    simp
  rw [h1, List.map_map]
  simp

/-- Claim C8: the guarded download step cleans up after itself on every exit
path: once it runs (the target directory did not pre-exist), the final
filesystem never contains the target directory existing-and-empty; if the
download wrote nothing (failure before any file, or an empty archive) the
directory is gone and the filesystem is exactly as before; if it wrote some
files, they and the directory are left in place — even when the download
failed. -/
theorem claim_C8 (env : Env) (fuel : Nat) (vs : String) (fs : FS)
    (ow rp ver : String) (rel : Release) (tr : List Ev) (web_root : String)
    (hvs : vs ≠ DEFAULT_VERSION_STRING)
    (hparse : parse_version_string vs = .ok (ow, rp, ver))
    (hprobe : ¬(starts_with_v ver = true ∧
        pjoin (pjoin CUSTOM_FRONTENDS_ROOT (ow ++ "_" ++ rp)) (lstrip_v ver) ∈ fs.dirs))
    (hrel : get_release env fuel ow rp ver = (.ok rel, tr))
    (hweb : web_root = pjoin (pjoin CUSTOM_FRONTENDS_ROOT (folder_name ow rp))
        (lstrip_v rel.tag_name))
    (hnew : web_root ∉ fs.dirs) (hclean : listdir fs web_root = []) :
    (web_root ∈ ( init_frontend_unsafe env fuel vs fs).fs.dirs →
       listdir ( init_frontend_unsafe env fuel vs fs).fs web_root ≠ []) ∧
    (listdir (download_release_asset_zip env rel web_root
        (makedirs fs web_root)).fs web_root = [] →
       ( init_frontend_unsafe env fuel vs fs).fs = fs) ∧
    (listdir (download_release_asset_zip env rel web_root
        (makedirs fs web_root)).fs web_root ≠ [] →
       ( init_frontend_unsafe env fuel vs fs).fs =
         (download_release_asset_zip env rel web_root (makedirs fs web_root)).fs ∧
       web_root ∈ (download_release_asset_zip env rel web_root
         (makedirs fs web_root)).fs.dirs) := by
  have h := (unsafe_after env fuel vs fs ow rp ver rel tr web_root
    hvs hparse hprobe hrel hweb).2 hnew
  set D := download_release_asset_zip env rel web_root (makedirs fs web_root) with hD
  obtain ⟨ns, hns⟩ := download_fs_files env rel web_root (makedirs fs web_root)
  have hmkfiles : (makedirs fs web_root).files = fs.files := rfl
  have hdirs : D.fs.dirs = web_root :: fs.dirs := by
    rw [hD, download_fs_dirs]
    show (if web_root ∈ fs.dirs then fs.dirs else web_root :: fs.dirs) = _
    rw [if_neg hnew]
  have hlist : listdir D.fs web_root = ns := by
    have hla := listdir_append fs web_root ns D.fs
      (by rw [hD, hns, hmkfiles])
    rw [hla, hclean]
    simp
  have hout : ( init_frontend_unsafe env fuel vs fs).fs =
      (if listdir D.fs web_root = [] then rmdir D.fs web_root else D.fs) := by
    rw [h]
  refine ⟨?_, ?_, ?_⟩
  · intro hmem
    by_cases hld : listdir D.fs web_root = []
    · exfalso
      rw [hout, if_pos hld] at hmem
      have hrd : (rmdir D.fs web_root).dirs = fs.dirs := by
        show D.fs.dirs.erase web_root = fs.dirs
        rw [hdirs]
        exact List.erase_cons_head web_root fs.dirs
      rw [hrd] at hmem
      exact hnew hmem
    · rw [hout, if_neg hld]
      exact hld
  · intro hld
    rw [hout, if_pos hld]
    have hns0 : ns = [] := by
      rw [hlist] at hld
      exact hld
    apply FS.ext
    · show D.fs.dirs.erase web_root = fs.dirs
      rw [hdirs]
      exact List.erase_cons_head web_root fs.dirs
    · show D.fs.files = fs.files
      rw [hD, hns, hns0, hmkfiles]
      simp
  · intro hld
    constructor
    · rw [hout, if_neg hld]
    · rw [hdirs]
      exact List.mem_cons_self web_root fs.dirs

/-- Witness for claim C8: the asset fetch fails with HTTP 500 after the
directory was created and before any file was written; the filesystem ends
exactly as it began — no empty directory is left behind. -/
theorem claim_C8_witness :
    ( init_frontend_unsafe env2 3 "acme/widgets@v1.0.0" fs0).fs = fs0 :=
  (claim_C8 env2 3 "acme/widgets@v1.0.0" fs0 "acme" "widgets" "v1.0.0" rel2
    [Ev.getPage (release_url "acme" "widgets")]
    "web_custom_versions/acme_widgets/1.0.0"
    (by decide) (by decide) (by decide) (by decide) (by decide)
    (by decide) (by decide)).2.1 (by decide)
